import Mathlib

/-!
Verification of the `uf2deploy` conversion and deployment pipeline.

The development shallowly embeds the program's core functions:
* `elf2bin` (src/uf2.rs, lines 93-182): ELF loadable-segment extraction into a
  contiguous physical image;
* `get_base_addr_of_elf` (src/uf2.rs, lines 60-79): base-address resolution;
* `elf2uf2` (src/uf2.rs, lines 16-57): the conversion pipeline;
* the UF2 encoder (the external `uf2` crate), modelled from the spec;
* the preset-table lookup (src/preset.rs, src/main.rs);
* `deploy_uf2` / `get_uf2_deploy_path` (src/deploy.rs): the retry-copy loop.

Machine integers are modelled as `Nat` with explicit bounds where Rust's
64-bit arithmetic matters (`saturating_add`, `checked_add`); byte buffers are
`List Nat`; fallible functions return `Except`/`Option`.
-/

set_option maxHeartbeats 1000000

deriving instance DecidableEq for Except

namespace Uf2Deploy

/-- Rust `u64::MAX`, the largest 64-bit unsigned value. -/
def U64_MAX : Nat := 2 ^ 64 - 1

/-- Rust `u64::saturating_add` (used at uf2.rs line 124). -/
def satAdd64 (a b : Nat) : Nat := min (a + b) U64_MAX

/-- Rust `usize::checked_add` on a 64-bit target: `none` models overflow
(used at uf2.rs lines 147-148 and 159-160). -/
def checkedAdd64 (a b : Nat) : Option Nat :=
  if a + b < 2 ^ 64 then some (a + b) else none

/-- The ELF program-header fields the program consults. All fields are 64-bit
unsigned values in the source (`p_type` is 32-bit), kept as `Nat`. -/
structure ProgramHeader where
  p_type : Nat
  p_offset : Nat
  p_vaddr : Nat
  p_paddr : Nat
  p_filesz : Nat
deriving DecidableEq

/-- The `PT_LOAD` program-header type tag. -/
def PT_LOAD : Nat := 1

/-- Outcome of parsing the input bytes with `goblin` (an external dependency):
the program distinguishes a successful ELF parse, a successful parse of some
other object format (`Ok(_)` at uf2.rs line 100), and a parse error. -/
inductive ElfParseResult where
  | elf (phs : List ProgramHeader)
  | notElf
  | parseFailed
deriving DecidableEq

/-- The failure cases of `elf2bin`, one per `bail!` site in uf2.rs.
`notAnElf` and `parseFailed` are the two format errors (lines 100-105). -/
inductive Elf2BinError where
  | notAnElf
  | parseFailed
  | noLoadableSegments
  | lmaRangeError
  | emptyImage
  | segmentSourceRange (p_offset p_filesz elf_len : Nat)
  | segmentDestRange (p_paddr p_filesz buffer_offset buf_len : Nat)
deriving DecidableEq

/-- The selected segments: `PT_LOAD` with `p_filesz > 0` (uf2.rs lines 109-113). -/
def selSegs (phs : List ProgramHeader) : List ProgramHeader :=
  phs.filter fun phdr => phdr.p_type == PT_LOAD && decide (0 < phdr.p_filesz)

/-- The single pass computing `(min_lma, max_lma_end)` (uf2.rs lines 119-125). -/
def lmaFold (sel : List ProgramHeader) : Nat × Nat :=
  sel.foldl
    (fun acc phdr =>
      (min acc.1 phdr.p_paddr, max acc.2 (satAdd64 phdr.p_paddr phdr.p_filesz)))
    (U64_MAX, 0)

/-- The `min_lma` value after the scan loop. -/
def minLma (sel : List ProgramHeader) : Nat := (lmaFold sel).1

/-- The `max_lma_end` value after the scan loop. -/
def maxLmaEnd (sel : List ProgramHeader) : Nat := (lmaFold sel).2

/-- Rust `output_buffer[off .. off + data.len()].copy_from_slice(data)`
(uf2.rs line 175), as a pure list operation. -/
def writeSlice (buf : List Nat) (off : Nat) (data : List Nat) : List Nat :=
  buf.take off ++ data ++ buf.drop (off + data.length)

/-- The copy loop of `elf2bin` (uf2.rs lines 139-176): for each selected
segment in header order, validate the source range against the ELF bytes and
the destination range against the buffer, then copy. `p_paddr - min_lma` is
`Nat` truncated subtraction, matching the source's unsigned subtraction (which
never underflows; see the safety claim). -/
def copySegments (elf_data : List Nat) (min_lma : Nat) :
    List ProgramHeader → List Nat → Except Elf2BinError (List Nat)
  | [], buf => .ok buf
  | phdr :: rest, buf =>
    let read_size := phdr.p_filesz
    let file_offset := phdr.p_offset
    let buffer_offset := phdr.p_paddr - min_lma
    match checkedAdd64 file_offset read_size with
    | none => .error (.segmentSourceRange phdr.p_offset phdr.p_filesz elf_data.length)
    | some srcEnd =>
      if elf_data.length < srcEnd then
        .error (.segmentSourceRange phdr.p_offset phdr.p_filesz elf_data.length)
      else
        match checkedAdd64 buffer_offset read_size with
        | none =>
          .error (.segmentDestRange phdr.p_paddr phdr.p_filesz buffer_offset buf.length)
        | some dstEnd =>
          if buf.length < dstEnd then
            .error (.segmentDestRange phdr.p_paddr phdr.p_filesz buffer_offset buf.length)
          else
            copySegments elf_data min_lma rest
              (writeSlice buf buffer_offset ((elf_data.drop file_offset).take read_size))

/-- Function `elf2bin` (uf2.rs lines 93-182), returning the output buffer instead of
writing it to a file. File I/O (reading the ELF, writing the `.bin`) is kept
outside the model; the parsed object and the raw bytes are the inputs. -/
def elf2bin (parsed : ElfParseResult) (elf_data : List Nat) :
    Except Elf2BinError (List Nat) :=
  match parsed with
  | .notElf => .error .notAnElf
  | .parseFailed => .error .parseFailed
  | .elf phs =>
    let loadable_segments := selSegs phs
    if loadable_segments.isEmpty then
      .error .noLoadableSegments
    else
      let min_lma := minLma loadable_segments
      let max_lma_end := maxLmaEnd loadable_segments
      if min_lma = U64_MAX then
        .error .lmaRangeError
      else if max_lma_end > min_lma then
        copySegments elf_data min_lma loadable_segments
          (List.replicate (max_lma_end - min_lma) 0)
      else
        .error .emptyImage

/-- The `PT_LOAD` filter used by `get_base_addr_of_elf` (uf2.rs line 70);
unlike `selSegs` it does not require a non-zero file size. -/
def loadSegs (phs : List ProgramHeader) : List ProgramHeader :=
  phs.filter fun phdr => phdr.p_type == PT_LOAD

/-- Function `get_base_addr_of_elf` (uf2.rs lines 60-79): minimum `p_vaddr` of the
`PT_LOAD` segments, defaulting to 0, cast `as u32` (`% 2 ^ 32`). The function
calls `Elf::parse(..).expect(..)`, so a file that does not parse as ELF makes
the process panic: `none` models that panic. -/
def get_base_addr_of_elf (parsed : ElfParseResult) : Option Nat :=
  match parsed with
  | .elf phs =>
    some (((((loadSegs phs).map fun phdr => phdr.p_vaddr).min?).getD 0) % 2 ^ 32)
  | _ => none

/-! ### The UF2 encoder

The encoder called at uf2.rs line 48 is `uf2::bin_to_uf2` from the external
`uf2` crate, whose source is not part of this repository; it is modelled from
the spec below. -/

/-- Modelled from the spec: the UF2 block header and payload fields (the two
leading magics and the trailing magic are fixed constants and carry no
information, so the block is modelled at field level). -/
structure Uf2Block where
  flags : Nat
  target_addr : Nat
  payload_size : Nat
  block_no : Nat
  num_blocks : Nat
  family_id : Nat
  data : List Nat
deriving DecidableEq

/-- Chunk splitter with structural fuel (`fuel ≥ l.length` makes it total):
partition `l` into consecutive chunks of 256 bytes, last chunk shorter. -/
def chunksOfAux : Nat → List Nat → List (List Nat)
  | 0, _ => []
  | _, [] => []
  | fuel + 1, l => l.take 256 :: chunksOfAux fuel (l.drop 256)

/-- Modelled from the spec: partition the image into chunks of 256 bytes. -/
def chunksOf256 (l : List Nat) : List (List Nat) := chunksOfAux l.length l

/-- Modelled from the spec: the block for chunk `c` at index `i` of `n` total
chunks: payload length is the actual chunk byte count (pre-padding), target
address `base + i * 256` (32-bit), data zero-padded to the 476-byte region. -/
def mkBlock (family_id base_addr n i : Nat) (c : List Nat) : Uf2Block :=
  { flags := if family_id = 0 then 0 else 0x2000
    target_addr := (base_addr + i * 256) % 2 ^ 32
    payload_size := c.length
    block_no := i
    num_blocks := n
    family_id := family_id
    data := c ++ List.replicate (476 - c.length) 0 }

/-- Modelled from the spec: emit one block per chunk, with ascending indices
starting at `i`. -/
def mkBlocks (family_id base_addr n : Nat) : Nat → List (List Nat) → List Uf2Block
  | _, [] => []
  | i, c :: rest =>
    mkBlock family_id base_addr n i c :: mkBlocks family_id base_addr n (i + 1) rest

/-- Modelled from the spec: `uf2::bin_to_uf2` — the image split into 256-byte
chunks, one block per chunk, in ascending address order. -/
def bin_to_uf2 (image : List Nat) (family_id base_addr : Nat) : List Uf2Block :=
  mkBlocks family_id base_addr (chunksOf256 image).length 0 (chunksOf256 image)

/-- The decoder named by the round-trip property: concatenate, in `block_no`
order, each block's first `payload_size` data bytes. -/
def decodeUf2 (bs : List Uf2Block) : List Nat :=
  ((List.range bs.length).map fun k =>
    match bs.find? (fun b => b.block_no == k) with
    | some b => b.data.take b.payload_size
    | none => []).flatten

/-- The `elf2uf2` outcome: the pipeline can return an error, succeed, or panic
(the `expect` inside `get_base_addr_of_elf`). -/
inductive Elf2Uf2Result where
  | panic
  | err (e : Elf2BinError)
  | ok (blocks : List Uf2Block) (base_addr : Nat)
deriving DecidableEq

/-- Function `elf2uf2` (uf2.rs lines 16-57): resolve the base address (from the
override, else from the ELF — panicking there if the bytes do not parse),
then run `elf2bin` and encode the result. -/
def elf2uf2 (parsed : ElfParseResult) (elf_data : List Nat) (family_id : Nat)
    (base_addr_arg : Option Nat) : Elf2Uf2Result :=
  match (match base_addr_arg with
         | some base_addr => some base_addr
         | none => get_base_addr_of_elf parsed) with
  | none => .panic
  | some base_addr =>
    match elf2bin parsed elf_data with
    | .error e => .err e
    | .ok bin => .ok (bin_to_uf2 bin family_id base_addr) base_addr

/-! ### Family preset table (src/preset.rs, src/main.rs) -/

/-- ASCII lowercasing of a byte string, modelling `str::to_lowercase` on the
ASCII short names of the preset table. -/
def asciiLower (s : List Nat) : List Nat :=
  s.map fun b => if 65 ≤ b ∧ b ≤ 90 then b + 32 else b

/-- One entry of the bundled `uf2families.json` (an external data file):
its parsed id and its short name as a byte string. -/
structure Uf2FamilyData where
  id : Nat
  short_name : List Nat
deriving DecidableEq

/-- The `UF2_PRESETS` construction (preset.rs lines 10-34): keys are the
lowercased short names. The `HashMap` is modelled as an association list. -/
def buildPresets (fams : List Uf2FamilyData) : List (List Nat × Nat) :=
  fams.map fun f => (asciiLower f.short_name, f.id)

/-- Lookup `UF2_PRESETS.get(&family)` (main.rs line 64): exact-match lookup of the
raw, un-normalised query string. -/
def presetsGet (tbl : List (List Nat × Nat)) (family : List Nat) : Option Nat :=
  (tbl.find? fun e => e.1 == family).map fun e => e.2

/-- Family resolution through the preset table as `main` performs it:
`none` means the query missed and `main` falls through to `parse_int`. -/
def resolveFamilyPreset (fams : List Uf2FamilyData) (family : List Nat) : Option Nat :=
  presetsGet (buildPresets fams) family

/-! ### Deployment (src/deploy.rs) -/

/-- A mounted volume as the scan sees it: its mount point (path components)
and whether `<mount_point>/INFO_UF2.TXT` exists. -/
structure Disk where
  mount_point : List String
  has_info_uf2 : Bool
deriving DecidableEq

/-- Function `get_uf2_deploy_path` (deploy.rs lines 60-81). Paths are modelled as
component lists; `join` is append. The `"auto"` branch takes the first
mounted volume carrying the sentinel file. -/
def get_uf2_deploy_path (disks : List Disk) (deploy_path : String)
    (uf2_file_name : String) : Except Unit (List String) :=
  (if deploy_path = "auto" then
      match disks.find? fun d => d.has_info_uf2 with
      | some d => Except.ok d.mount_point
      | none => Except.error ()
    else
      Except.ok [deploy_path]).map
    fun deploy_dir => deploy_dir ++ [uf2_file_name]

/-- The environment a deployment runs against: the mounted disks visible at
attempt `i`, and whether the `fs_extra` copy to path `p` succeeds at attempt
`i`. Both vary per attempt (volumes appear asynchronously). -/
structure DeployEnv where
  disks : Nat → List Disk
  copyOk : Nat → List String → Bool

/-- The retry loop of `deploy_uf2` (deploy.rs lines 17-53): `remaining`
attempts left, `i` the index of the current attempt; returns the successful
deploy path (if any) paired with the number of attempts performed. Each
attempt re-runs `get_uf2_deploy_path` on the disks visible at that attempt;
a resolve failure or a copy failure continues with the next attempt. -/
def deployAux (env : DeployEnv) (deploy_path_args uf2_file_name : String) :
    Nat → Nat → Option (List String) × Nat
  | 0, _ => (none, 0)
  | remaining + 1, i =>
    match get_uf2_deploy_path (env.disks i) deploy_path_args uf2_file_name with
    | .error _ =>
      let r := deployAux env deploy_path_args uf2_file_name remaining (i + 1)
      (r.1, r.2 + 1)
    | .ok deploy_path =>
      if env.copyOk i deploy_path then (some deploy_path, 1)
      else
        let r := deployAux env deploy_path_args uf2_file_name remaining (i + 1)
        (r.1, r.2 + 1)

/-- The only terminal failure of `deploy_uf2` (deploy.rs line 52). -/
inductive DeployError where
  | deployFailed
deriving DecidableEq

/-- Function `deploy_uf2` (deploy.rs lines 3-58): run the bounded retry loop; the
first successful copy ends it with the resolved path, exhaustion fails. -/
def deploy_uf2 (env : DeployEnv) (deploy_path_args uf2_file_name : String)
    (deploy_retry_count : Nat) : Except DeployError (List String) :=
  match (deployAux env deploy_path_args uf2_file_name deploy_retry_count 0).1 with
  | some deploy_path => .ok deploy_path
  | none => .error .deployFailed

/-- The number of resolve+copy attempts a deployment performs. -/
def deployAttempts (env : DeployEnv) (deploy_path_args uf2_file_name : String)
    (deploy_retry_count : Nat) : Nat :=
  (deployAux env deploy_path_args uf2_file_name deploy_retry_count 0).2

/-- Attempt `i` fails: either resolution fails, or the copy to the resolved
path fails. -/
def attemptFails (env : DeployEnv) (deploy_path_args uf2_file_name : String)
    (i : Nat) : Prop :=
  match get_uf2_deploy_path (env.disks i) deploy_path_args uf2_file_name with
  | .error _ => True
  | .ok deploy_path => env.copyOk i deploy_path = false

/-! ### Statement-side predicates for the extraction claims -/

/-- A segment's source byte range is out of bounds for the ELF bytes: the
`checked_add` overflows, or `file_offset + file_size` exceeds the file length
(uf2.rs lines 147-150). -/
def srcViolates (phdr : ProgramHeader) (elf_len : Nat) : Prop :=
  2 ^ 64 ≤ phdr.p_offset + phdr.p_filesz ∨ elf_len < phdr.p_offset + phdr.p_filesz

/-- A segment's destination byte range is out of bounds for the output
buffer (uf2.rs lines 159-162). -/
def dstViolates (phdr : ProgramHeader) (min_lma buf_len : Nat) : Prop :=
  2 ^ 64 ≤ (phdr.p_paddr - min_lma) + phdr.p_filesz ∨
    buf_len < (phdr.p_paddr - min_lma) + phdr.p_filesz

instance (phdr : ProgramHeader) (elf_len : Nat) : Decidable (srcViolates phdr elf_len) := by
  unfold srcViolates; infer_instance

instance (phdr : ProgramHeader) (min_lma buf_len : Nat) :
    Decidable (dstViolates phdr min_lma buf_len) := by
  unfold dstViolates; infer_instance

/-- The two `SegmentRangeError` variants. -/
def isSegRangeError : Elf2BinError → Prop
  | .segmentSourceRange _ _ _ => True
  | .segmentDestRange _ _ _ _ => True
  | _ => False

/-- The last program header in the list covering output position `pos`
(later segments overwrite earlier ones on overlap). -/
def coveringSeg (min_lma : Nat) : List ProgramHeader → Nat → Option ProgramHeader
  | [], _ => none
  | phdr :: rest, pos =>
    match coveringSeg min_lma rest pos with
    | some q => some q
    | none =>
      if phdr.p_paddr - min_lma ≤ pos ∧ pos < (phdr.p_paddr - min_lma) + phdr.p_filesz
      then some phdr else none

/-- The byte the spec assigns to position `pos` of the image: the byte copied
there by the last covering segment, and 0 where no segment covers. -/
def specByte (min_lma : Nat) (sel : List ProgramHeader) (elf_data : List Nat)
    (pos : Nat) : Nat :=
  match coveringSeg min_lma sel pos with
  | some phdr => elf_data.getD (phdr.p_offset + (pos - (phdr.p_paddr - min_lma))) 0
  | none => 0

/-- The value `min(p_paddr)` over a segment list, as the source's fold. -/
def minPaddr (sel : List ProgramHeader) : Nat :=
  sel.foldl (fun acc phdr => min acc phdr.p_paddr) U64_MAX

/-- The value `max(p_paddr + p_filesz)` over a segment list, with true (non-saturating)
addition: the quantity the spec's image-length formula uses. -/
def maxEndTrue (sel : List ProgramHeader) : Nat :=
  sel.foldl (fun acc phdr => max acc (phdr.p_paddr + phdr.p_filesz)) 0

/-- The value `max(saturating_add(p_paddr, p_filesz))` over a segment list, as the
source computes it. -/
def maxEndSat (sel : List ProgramHeader) : Nat :=
  sel.foldl (fun acc phdr => max acc (satAdd64 phdr.p_paddr phdr.p_filesz)) 0

/-! ### Fold lemmas -/

theorem lmaFold_split (sel : List ProgramHeader) (a b : Nat) :
    sel.foldl
      (fun acc phdr =>
        (min acc.1 phdr.p_paddr, max acc.2 (satAdd64 phdr.p_paddr phdr.p_filesz)))
      (a, b)
      = (sel.foldl (fun acc phdr => min acc phdr.p_paddr) a,
         sel.foldl (fun acc phdr => max acc (satAdd64 phdr.p_paddr phdr.p_filesz)) b) := by
  induction sel generalizing a b with
  | nil => rfl
  | cons phdr rest ih => simpa using ih (min a phdr.p_paddr) _

theorem minLma_eq_minPaddr (sel : List ProgramHeader) : minLma sel = minPaddr sel := by
  simp [minLma, minPaddr, lmaFold, lmaFold_split]

theorem maxLmaEnd_eq_maxEndSat (sel : List ProgramHeader) : maxLmaEnd sel = maxEndSat sel := by
  simp [maxLmaEnd, maxEndSat, lmaFold, lmaFold_split]

theorem foldl_min_le_init (f : ProgramHeader → Nat) (l : List ProgramHeader) (a : Nat) :
    l.foldl (fun acc phdr => min acc (f phdr)) a ≤ a := by
  induction l generalizing a with
  | nil => simp
  | cons phdr rest ih => exact le_trans (ih (min a (f phdr))) (min_le_left _ _)

theorem foldl_min_le_mem (f : ProgramHeader → Nat) (l : List ProgramHeader) (a : Nat) :
    ∀ phdr ∈ l, l.foldl (fun acc q => min acc (f q)) a ≤ f phdr := by
  induction l generalizing a with
  | nil => intro _ h; exact absurd h (List.not_mem_nil _)
  | cons phdr rest ih =>
    intro q hq
    rcases List.mem_cons.mp hq with h | h
    · subst h
      exact le_trans (foldl_min_le_init f rest (min a (f q))) (min_le_right _ _)
    · exact ih (min a (f phdr)) q h

theorem foldl_min_cases (f : ProgramHeader → Nat) (l : List ProgramHeader) (a : Nat) :
    l.foldl (fun acc q => min acc (f q)) a = a ∨
      ∃ phdr ∈ l, l.foldl (fun acc q => min acc (f q)) a = f phdr := by
  induction l generalizing a with
  | nil => left; rfl
  | cons phdr rest ih =>
    rcases ih (min a (f phdr)) with h | ⟨q, hq, h⟩
    · rcases min_choice a (f phdr) with hm | hm
      · left; simpa [hm] using h
      · right; exact ⟨phdr, List.mem_cons_self _ _, by simpa [hm] using h⟩
    · right; exact ⟨q, List.mem_cons_of_mem _ hq, h⟩

theorem le_foldl_max_init (f : ProgramHeader → Nat) (l : List ProgramHeader) (b : Nat) :
    b ≤ l.foldl (fun acc phdr => max acc (f phdr)) b := by
  induction l generalizing b with
  | nil => simp
  | cons phdr rest ih => exact le_trans (le_max_left _ _) (ih (max b (f phdr)))

theorem le_foldl_max_mem (f : ProgramHeader → Nat) (l : List ProgramHeader) (b : Nat) :
    ∀ phdr ∈ l, f phdr ≤ l.foldl (fun acc q => max acc (f q)) b := by
  induction l generalizing b with
  | nil => intro _ h; exact absurd h (List.not_mem_nil _)
  | cons phdr rest ih =>
    intro q hq
    rcases List.mem_cons.mp hq with h | h
    · subst h
      exact le_trans (le_max_right _ _) (le_foldl_max_init f rest (max b (f q)))
    · exact ih (max b (f phdr)) q h

theorem foldl_max_cases (f : ProgramHeader → Nat) (l : List ProgramHeader) (b : Nat) :
    l.foldl (fun acc q => max acc (f q)) b = b ∨
      ∃ phdr ∈ l, l.foldl (fun acc q => max acc (f q)) b = f phdr := by
  induction l generalizing b with
  | nil => left; rfl
  | cons phdr rest ih =>
    rcases ih (max b (f phdr)) with h | ⟨q, hq, h⟩
    · rcases max_choice b (f phdr) with hm | hm
      · left; simpa [hm] using h
      · right; exact ⟨phdr, List.mem_cons_self _ _, by simpa [hm] using h⟩
    · right; exact ⟨q, List.mem_cons_of_mem _ hq, h⟩

theorem foldl_max_le (f : ProgramHeader → Nat) (l : List ProgramHeader) (b c : Nat)
    (hb : b ≤ c) (h : ∀ phdr ∈ l, f phdr ≤ c) :
    l.foldl (fun acc q => max acc (f q)) b ≤ c := by
  induction l generalizing b with
  | nil => simpa using hb
  | cons phdr rest ih =>
    exact ih _ (max_le hb (h phdr (List.mem_cons_self _ _)))
      fun q hq => h q (List.mem_cons_of_mem _ hq)

theorem foldl_max_congr (f g : ProgramHeader → Nat) (l : List ProgramHeader) (b : Nat)
    (h : ∀ phdr ∈ l, f phdr = g phdr) :
    l.foldl (fun acc q => max acc (f q)) b = l.foldl (fun acc q => max acc (g q)) b := by
  induction l generalizing b with
  | nil => rfl
  | cons phdr rest ih =>
    rw [List.foldl_cons, List.foldl_cons, h phdr (List.mem_cons_self _ _)]
    exact ih _ fun q hq => h q (List.mem_cons_of_mem _ hq)

theorem mem_selSegs (phs : List ProgramHeader) (phdr : ProgramHeader)
    (h : phdr ∈ selSegs phs) : phdr ∈ phs ∧ phdr.p_type = PT_LOAD ∧ 0 < phdr.p_filesz := by
  have h' := List.mem_filter.mp h
  refine ⟨h'.1, ?_, ?_⟩
  · have := h'.2
    simp only [Bool.and_eq_true, beq_iff_eq, decide_eq_true_eq] at this
    exact this.1
  · have := h'.2
    simp only [Bool.and_eq_true, beq_iff_eq, decide_eq_true_eq] at this
    exact this.2

/-! ### `writeSlice` lemmas -/

theorem writeSlice_length (buf : List Nat) (off : Nat) (data : List Nat)
    (h : off + data.length ≤ buf.length) :
    (writeSlice buf off data).length = buf.length := by
  simp only [writeSlice, List.length_append, List.length_take, List.length_drop]
  omega

theorem writeSlice_getD (buf : List Nat) (off : Nat) (data : List Nat)
    (h : off + data.length ≤ buf.length) (pos : Nat) :
    (writeSlice buf off data).getD pos 0 =
      if off ≤ pos ∧ pos < off + data.length then data.getD (pos - off) 0
      else buf.getD pos 0 := by
  have hofflen : (buf.take off).length = off := by
    rw [List.length_take]; omega
  have hl1 : (buf.take off ++ data).length = off + data.length := by
    rw [List.length_append, hofflen]
  by_cases h1 : pos < off
  · rw [if_neg (by omega)]
    rw [writeSlice, List.getD_append _ _ _ _ (by rw [hl1]; omega),
      List.getD_append _ _ _ _ (by rw [hofflen]; omega)]
    rw [List.getD_eq_getElem?_getD, List.getD_eq_getElem?_getD, List.getElem?_take,
      if_pos h1]
  · by_cases h2 : pos < off + data.length
    · rw [if_pos ⟨by omega, h2⟩]
      rw [writeSlice, List.getD_append _ _ _ _ (by rw [hl1]; omega),
        List.getD_append_right _ _ _ _ (by rw [hofflen]; omega), hofflen]
    · rw [if_neg (by omega)]
      rw [writeSlice, List.getD_append_right _ _ _ _ (by rw [hl1]; omega), hl1]
      rw [List.getD_eq_getElem?_getD, List.getD_eq_getElem?_getD, List.getElem?_drop]
      have hidx : off + data.length + (pos - (off + data.length)) = pos := by omega
      rw [hidx]

theorem getD_replicate_zero (n pos : Nat) :
    (List.replicate n (0 : Nat)).getD pos 0 = 0 := by
  rw [List.getD_eq_getElem?_getD, List.getElem?_replicate]
  by_cases h : pos < n <;> simp [h]

theorem getD_drop_take (l : List Nat) (fo rs j : Nat) (hj : j < rs) :
    ((l.drop fo).take rs).getD j 0 = l.getD (fo + j) 0 := by
  rw [List.getD_eq_getElem?_getD, List.getD_eq_getElem?_getD, List.getElem?_take,
    if_pos hj, List.getElem?_drop]

theorem length_drop_take (l : List Nat) (fo rs : Nat) (hlen : fo + rs ≤ l.length) :
    ((l.drop fo).take rs).length = rs := by
  simp only [List.length_take, List.length_drop]
  omega

/-! ### `copySegments` step lemmas -/

theorem checkedAdd64_eq_some (a b : Nat) (h : a + b < 2 ^ 64) :
    checkedAdd64 a b = some (a + b) := by
  unfold checkedAdd64; rw [if_pos h]

theorem checkedAdd64_eq_none (a b : Nat) (h : 2 ^ 64 ≤ a + b) :
    checkedAdd64 a b = none := by
  unfold checkedAdd64; rw [if_neg (by omega)]

theorem copySegments_cons_ok (elf_data : List Nat) (min_lma : Nat)
    (phdr : ProgramHeader) (rest : List ProgramHeader) (buf : List Nat)
    (h1 : ¬ srcViolates phdr elf_data.length)
    (h2 : ¬ dstViolates phdr min_lma buf.length) :
    copySegments elf_data min_lma (phdr :: rest) buf =
      copySegments elf_data min_lma rest
        (writeSlice buf (phdr.p_paddr - min_lma)
          ((elf_data.drop phdr.p_offset).take phdr.p_filesz)) := by
  unfold srcViolates at h1
  unfold dstViolates at h2
  push_neg at h1 h2
  simp only [copySegments, checkedAdd64_eq_some _ _ h1.1, if_neg (not_lt.mpr h1.2),
    checkedAdd64_eq_some _ _ h2.1, if_neg (not_lt.mpr h2.2)]

theorem copySegments_cons_err (elf_data : List Nat) (min_lma : Nat)
    (phdr : ProgramHeader) (rest : List ProgramHeader) (buf : List Nat)
    (h : srcViolates phdr elf_data.length ∨ dstViolates phdr min_lma buf.length) :
    ∃ e, copySegments elf_data min_lma (phdr :: rest) buf = .error e ∧ isSegRangeError e := by
  by_cases hs : srcViolates phdr elf_data.length
  · have hs' := hs
    unfold srcViolates at hs'
    by_cases hov : phdr.p_offset + phdr.p_filesz < 2 ^ 64
    · have hlen : elf_data.length < phdr.p_offset + phdr.p_filesz := by
        rcases hs' with h1 | h1
        · omega
        · exact h1
      refine ⟨.segmentSourceRange phdr.p_offset phdr.p_filesz elf_data.length, ?_, trivial⟩
      simp only [copySegments, checkedAdd64_eq_some _ _ hov, if_pos hlen]
    · refine ⟨.segmentSourceRange phdr.p_offset phdr.p_filesz elf_data.length, ?_, trivial⟩
      simp only [copySegments,
        checkedAdd64_eq_none phdr.p_offset phdr.p_filesz (by omega)]
  · have hd : dstViolates phdr min_lma buf.length := h.resolve_left hs
    have hs' := hs
    unfold srcViolates at hs'
    push_neg at hs'
    have hd' := hd
    unfold dstViolates at hd'
    by_cases hov : (phdr.p_paddr - min_lma) + phdr.p_filesz < 2 ^ 64
    · have hlen : buf.length < (phdr.p_paddr - min_lma) + phdr.p_filesz := by
        rcases hd' with h1 | h1
        · omega
        · exact h1
      refine ⟨.segmentDestRange phdr.p_paddr phdr.p_filesz (phdr.p_paddr - min_lma)
        buf.length, ?_, trivial⟩
      simp only [copySegments, checkedAdd64_eq_some _ _ hs'.1, if_neg (not_lt.mpr hs'.2),
        checkedAdd64_eq_some _ _ hov, if_pos hlen]
    · refine ⟨.segmentDestRange phdr.p_paddr phdr.p_filesz (phdr.p_paddr - min_lma)
        buf.length, ?_, trivial⟩
      simp only [copySegments, checkedAdd64_eq_some _ _ hs'.1, if_neg (not_lt.mpr hs'.2),
        checkedAdd64_eq_none (phdr.p_paddr - min_lma) phdr.p_filesz (by omega)]

theorem segData_length (elf_data : List Nat) (phdr : ProgramHeader)
    (hs : ¬ srcViolates phdr elf_data.length) :
    ((elf_data.drop phdr.p_offset).take phdr.p_filesz).length = phdr.p_filesz := by
  unfold srcViolates at hs
  push_neg at hs
  exact length_drop_take _ _ _ hs.2

theorem segWrite_bound (elf_data buf : List Nat) (min_lma : Nat) (phdr : ProgramHeader)
    (hs : ¬ srcViolates phdr elf_data.length)
    (hd : ¬ dstViolates phdr min_lma buf.length) :
    (phdr.p_paddr - min_lma) +
      ((elf_data.drop phdr.p_offset).take phdr.p_filesz).length ≤ buf.length := by
  rw [segData_length _ _ hs]
  unfold dstViolates at hd
  push_neg at hd
  exact hd.2

/-! ### `copySegments` inductive lemmas -/

theorem copySegments_ok_length (elf_data : List Nat) (min_lma : Nat) :
    ∀ (sel : List ProgramHeader) (buf out : List Nat),
      copySegments elf_data min_lma sel buf = .ok out → out.length = buf.length := by
  intro sel
  induction sel with
  | nil =>
    intro buf out h
    simp only [copySegments, Except.ok.injEq] at h
    rw [← h]
  | cons phdr rest ih =>
    intro buf out h
    by_cases hs : srcViolates phdr elf_data.length
    · rcases copySegments_cons_err elf_data min_lma phdr rest buf (Or.inl hs) with ⟨e, he, _⟩
      rw [he] at h
      exact Except.noConfusion h
    · by_cases hd : dstViolates phdr min_lma buf.length
      · rcases copySegments_cons_err elf_data min_lma phdr rest buf (Or.inr hd) with ⟨e, he, _⟩
        rw [he] at h
        exact Except.noConfusion h
      · rw [copySegments_cons_ok _ _ _ _ _ hs hd] at h
        rw [ih _ _ h, writeSlice_length _ _ _ (segWrite_bound _ _ _ _ hs hd)]

theorem copySegments_ok_checks (elf_data : List Nat) (min_lma : Nat) :
    ∀ (sel : List ProgramHeader) (buf out : List Nat),
      copySegments elf_data min_lma sel buf = .ok out →
      ∀ phdr ∈ sel,
        ¬ srcViolates phdr elf_data.length ∧ ¬ dstViolates phdr min_lma buf.length := by
  intro sel
  induction sel with
  | nil => intro _ _ _ phdr h; exact absurd h (List.not_mem_nil _)
  | cons phdr rest ih =>
    intro buf out h q hq
    by_cases hs : srcViolates phdr elf_data.length
    · rcases copySegments_cons_err elf_data min_lma phdr rest buf (Or.inl hs) with ⟨e, he, _⟩
      rw [he] at h
      exact Except.noConfusion h
    · by_cases hd : dstViolates phdr min_lma buf.length
      · rcases copySegments_cons_err elf_data min_lma phdr rest buf (Or.inr hd) with ⟨e, he, _⟩
        rw [he] at h
        exact Except.noConfusion h
      · rcases List.mem_cons.mp hq with hql | hql
        · subst hql; exact ⟨hs, hd⟩
        · rw [copySegments_cons_ok _ _ _ _ _ hs hd] at h
          have := ih _ _ h q hql
          rwa [writeSlice_length _ _ _ (segWrite_bound _ _ _ _ hs hd)] at this

theorem copySegments_err_of_violation (elf_data : List Nat) (min_lma : Nat) :
    ∀ (sel : List ProgramHeader) (buf : List Nat),
      (∃ phdr ∈ sel,
        srcViolates phdr elf_data.length ∨ dstViolates phdr min_lma buf.length) →
      ∃ e, copySegments elf_data min_lma sel buf = .error e ∧ isSegRangeError e := by
  intro sel
  induction sel with
  | nil =>
    intro buf h
    rcases h with ⟨phdr, hm, _⟩
    exact absurd hm (List.not_mem_nil _)
  | cons phdr rest ih =>
    intro buf h
    by_cases hs : srcViolates phdr elf_data.length
    · exact copySegments_cons_err elf_data min_lma phdr rest buf (Or.inl hs)
    · by_cases hd : dstViolates phdr min_lma buf.length
      · exact copySegments_cons_err elf_data min_lma phdr rest buf (Or.inr hd)
      · rcases h with ⟨q, hq, hv⟩
        rcases List.mem_cons.mp hq with hql | hql
        · subst hql
          exact absurd hv (by simp [hs, hd])
        · rw [copySegments_cons_ok _ _ _ _ _ hs hd]
          apply ih
          refine ⟨q, hql, ?_⟩
          rwa [writeSlice_length _ _ _ (segWrite_bound _ _ _ _ hs hd)]

theorem copySegments_ok_getD (elf_data : List Nat) (min_lma : Nat) :
    ∀ (sel : List ProgramHeader) (buf out : List Nat),
      copySegments elf_data min_lma sel buf = .ok out →
      ∀ pos, pos < buf.length →
        out.getD pos 0 =
          match coveringSeg min_lma sel pos with
          | some phdr =>
            elf_data.getD (phdr.p_offset + (pos - (phdr.p_paddr - min_lma))) 0
          | none => buf.getD pos 0 := by
  intro sel
  induction sel with
  | nil =>
    intro buf out h pos _
    simp only [copySegments, Except.ok.injEq] at h
    rw [← h]
    rfl
  | cons phdr rest ih =>
    intro buf out h pos hpos
    by_cases hs : srcViolates phdr elf_data.length
    · rcases copySegments_cons_err elf_data min_lma phdr rest buf (Or.inl hs) with ⟨e, he, _⟩
      rw [he] at h
      exact Except.noConfusion h
    · by_cases hd : dstViolates phdr min_lma buf.length
      · rcases copySegments_cons_err elf_data min_lma phdr rest buf (Or.inr hd) with ⟨e, he, _⟩
        rw [he] at h
        exact Except.noConfusion h
      · rw [copySegments_cons_ok _ _ _ _ _ hs hd] at h
        have hwlen := writeSlice_length buf (phdr.p_paddr - min_lma)
          ((elf_data.drop phdr.p_offset).take phdr.p_filesz)
          (segWrite_bound _ _ _ _ hs hd)
        have hih := ih _ _ h pos (by rw [hwlen]; exact hpos)
        rw [hih]
        show _ = match coveringSeg min_lma (phdr :: rest) pos with
          | some q => elf_data.getD (q.p_offset + (pos - (q.p_paddr - min_lma))) 0
          | none => buf.getD pos 0
        simp only [coveringSeg]
        cases hcov : coveringSeg min_lma rest pos with
        | some q => rfl
        | none =>
          simp only []
          rw [writeSlice_getD _ _ _ (segWrite_bound _ _ _ _ hs hd) pos]
          rw [segData_length _ _ hs]
          by_cases hc : phdr.p_paddr - min_lma ≤ pos ∧
              pos < (phdr.p_paddr - min_lma) + phdr.p_filesz
          · rw [if_pos hc, if_pos hc]
            exact getD_drop_take _ _ _ _ (by omega)
          · rw [if_neg hc, if_neg hc]

/-! ### `elf2bin` elimination -/

theorem elf2bin_ok_elim (phs : List ProgramHeader) (elf_data img : List Nat)
    (h : elf2bin (.elf phs) elf_data = .ok img) :
    selSegs phs ≠ [] ∧ minLma (selSegs phs) ≠ U64_MAX ∧
      minLma (selSegs phs) < maxLmaEnd (selSegs phs) ∧
      copySegments elf_data (minLma (selSegs phs)) (selSegs phs)
        (List.replicate (maxLmaEnd (selSegs phs) - minLma (selSegs phs)) 0) = .ok img := by
  simp only [elf2bin] at h
  by_cases he : (selSegs phs).isEmpty = true
  · rw [if_pos he] at h
    exact Except.noConfusion h
  · rw [if_neg he] at h
    by_cases hm : minLma (selSegs phs) = U64_MAX
    · rw [if_pos hm] at h
      exact Except.noConfusion h
    · rw [if_neg hm] at h
      by_cases hgt : maxLmaEnd (selSegs phs) > minLma (selSegs phs)
      · rw [if_pos hgt] at h
        exact ⟨fun hnil => he (by rw [hnil]; rfl), hm, hgt, h⟩
      · rw [if_neg hgt] at h
        exact Except.noConfusion h

/-- C1 concrete inputs: one loadable segment, `p_paddr = 0x1000`,
`p_filesz = 4`, `p_offset = 0x40`, bytes `DE AD BE EF` at offset `0x40`. -/
def cPh0 : ProgramHeader := ⟨1, 64, 4096, 4096, 4⟩

def cElfData : List Nat := List.replicate 64 0 ++ [222, 173, 190, 239]

/-- C1: for every ELF input that passes the checks, the extracted physical
image has length `max(p_paddr + p_filesz) - min(p_paddr)` over the selected
segments (the bounds really are the maximum and minimum over that set), and
every position holds the byte the last covering segment (header order)
copied there from the ELF at `file_offset`, with positions covered by no
segment zero — i.e. the buffer starts zero-initialized and the segments are
copied to offset `p_paddr - min_lma` in header order. -/
theorem c1_physical_image (phs : List ProgramHeader) (elf_data img : List Nat)
    (hok : elf2bin (.elf phs) elf_data = .ok img) :
    img.length = maxEndTrue (selSegs phs) - minPaddr (selSegs phs) ∧
    (∃ phdr ∈ selSegs phs, minPaddr (selSegs phs) = phdr.p_paddr ∧
      ∀ q ∈ selSegs phs, phdr.p_paddr ≤ q.p_paddr) ∧
    (∃ phdr ∈ selSegs phs, maxEndTrue (selSegs phs) = phdr.p_paddr + phdr.p_filesz ∧
      ∀ q ∈ selSegs phs, q.p_paddr + q.p_filesz ≤ phdr.p_paddr + phdr.p_filesz) ∧
    ∀ pos, pos < img.length →
      img.getD pos 0 = specByte (minPaddr (selSegs phs)) (selSegs phs) elf_data pos := by
  obtain ⟨hne, hmne, hlt, hcopy⟩ := elf2bin_ok_elim phs elf_data img hok
  rw [minLma_eq_minPaddr] at hmne
  rw [minLma_eq_minPaddr, maxLmaEnd_eq_maxEndSat] at hlt hcopy
  have hlen0 : img.length = maxEndSat (selSegs phs) - minPaddr (selSegs phs) := by
    have := copySegments_ok_length elf_data (minPaddr (selSegs phs)) (selSegs phs) _ img hcopy
    rwa [List.length_replicate] at this
  have hchecks := copySegments_ok_checks elf_data (minPaddr (selSegs phs)) (selSegs phs) _ img hcopy
  have hminle : ∀ phdr ∈ selSegs phs, minPaddr (selSegs phs) ≤ phdr.p_paddr :=
    fun phdr hm => foldl_min_le_mem (fun q => q.p_paddr) (selSegs phs) U64_MAX phdr hm
  have hsatle : maxEndSat (selSegs phs) ≤ U64_MAX :=
    foldl_max_le _ _ 0 U64_MAX (Nat.zero_le _) fun phdr _ => min_le_right _ _
  have hsum_le : ∀ phdr ∈ selSegs phs,
      phdr.p_paddr + phdr.p_filesz ≤ maxEndSat (selSegs phs) := by
    intro phdr hm
    have hd := (hchecks phdr hm).2
    unfold dstViolates at hd
    push_neg at hd
    have h1 := hd.2
    rw [List.length_replicate] at h1
    have h2 := hminle phdr hm
    omega
  have hMt : maxEndTrue (selSegs phs) = maxEndSat (selSegs phs) := by
    apply foldl_max_congr
    intro phdr hm
    have hb : phdr.p_paddr + phdr.p_filesz ≤ U64_MAX :=
      le_trans (hsum_le phdr hm) hsatle
    unfold satAdd64
    omega
  refine ⟨by rw [hlen0, hMt], ?_, ?_, ?_⟩
  · rcases foldl_min_cases (fun q => q.p_paddr) (selSegs phs) U64_MAX with hc | ⟨phdr, hm, hc⟩
    · exact absurd hc hmne
    · exact ⟨phdr, hm, hc, fun q hq => hc ▸ foldl_min_le_mem _ _ _ q hq⟩
  · rcases foldl_max_cases (fun q => q.p_paddr + q.p_filesz) (selSegs phs) 0
      with hc | ⟨phdr, hm, hc⟩
    · exfalso
      obtain ⟨ph0, h0⟩ := List.exists_mem_of_ne_nil _ hne
      have hfs := (mem_selSegs phs ph0 h0).2.2
      have hle : ph0.p_paddr + ph0.p_filesz ≤ 0 := by
        have h := le_foldl_max_mem (fun q => q.p_paddr + q.p_filesz) (selSegs phs) 0 ph0 h0
        rw [hc] at h
        exact h
      omega
    · refine ⟨phdr, hm, hc, fun q hq => ?_⟩
      have h := le_foldl_max_mem (fun r => r.p_paddr + r.p_filesz) (selSegs phs) 0 q hq
      rw [hc] at h
      exact h
  · intro pos hpos
    have hgd := copySegments_ok_getD elf_data (minPaddr (selSegs phs)) (selSegs phs) _ img
      hcopy pos (by rw [List.length_replicate, ← hlen0]; exact hpos)
    rw [hgd]
    unfold specByte
    cases hcov : coveringSeg (minPaddr (selSegs phs)) (selSegs phs) pos with
    | some q => simp only [hcov]
    | none => simpa only [hcov] using getD_replicate_zero _ pos

/-- C1 witness: the theorem applied to the concrete one-segment ELF. -/
theorem c1_physical_image_witness :
    elf2bin (.elf [cPh0]) cElfData = .ok [222, 173, 190, 239] ∧
    (([222, 173, 190, 239] : List Nat).length =
      maxEndTrue (selSegs [cPh0]) - minPaddr (selSegs [cPh0]) ∧
    (∃ phdr ∈ selSegs [cPh0], minPaddr (selSegs [cPh0]) = phdr.p_paddr ∧
      ∀ q ∈ selSegs [cPh0], phdr.p_paddr ≤ q.p_paddr) ∧
    (∃ phdr ∈ selSegs [cPh0], maxEndTrue (selSegs [cPh0]) = phdr.p_paddr + phdr.p_filesz ∧
      ∀ q ∈ selSegs [cPh0], q.p_paddr + q.p_filesz ≤ phdr.p_paddr + phdr.p_filesz) ∧
    ∀ pos, pos < ([222, 173, 190, 239] : List Nat).length →
      ([222, 173, 190, 239] : List Nat).getD pos 0 =
        specByte (minPaddr (selSegs [cPh0])) (selSegs [cPh0]) cElfData pos) :=
  ⟨by decide, c1_physical_image [cPh0] cElfData [222, 173, 190, 239] (by decide)⟩

/-- C3: an ELF whose program headers contain no `PT_LOAD` entry with non-zero
file size makes segment extraction fail with the no-loadable-segments error. -/
theorem c3_no_loadable_segments (phs : List ProgramHeader) (elf_data : List Nat)
    (h : ∀ phdr ∈ phs, phdr.p_type ≠ PT_LOAD ∨ phdr.p_filesz = 0) :
    elf2bin (.elf phs) elf_data = .error .noLoadableSegments := by
  have hsel : selSegs phs = [] := by
    apply List.filter_eq_nil_iff.mpr
    intro phdr hm
    simp only [Bool.and_eq_true, beq_iff_eq, decide_eq_true_eq, not_and]
    intro hty
    rcases h phdr hm with h1 | h1
    · exact absurd hty h1
    · omega
  simp [elf2bin, hsel]

/-- C3 witness: a non-loadable header plus a loadable header of zero file
size yield the no-loadable-segments error. -/
theorem c3_no_loadable_segments_witness :
    (∀ phdr ∈ [(⟨2, 0, 0, 0, 5⟩ : ProgramHeader), ⟨1, 0, 0, 0, 0⟩],
      phdr.p_type ≠ PT_LOAD ∨ phdr.p_filesz = 0) ∧
    elf2bin (.elf [⟨2, 0, 0, 0, 5⟩, ⟨1, 0, 0, 0, 0⟩]) [] = .error .noLoadableSegments :=
  ⟨by decide, c3_no_loadable_segments [⟨2, 0, 0, 0, 5⟩, ⟨1, 0, 0, 0, 0⟩] [] (by decide)⟩

/-- C4: extraction succeeds only if every selected segment's source range lies
within the ELF bytes and its destination range within the output buffer (no
silently truncated copy); and whenever some selected segment violates a range
(and the stages before the copy loop pass), extraction fails with one of the
two segment-range errors. -/
theorem c4_segment_range_checks (phs : List ProgramHeader) (elf_data : List Nat) :
    (∀ img, elf2bin (.elf phs) elf_data = .ok img →
      ∀ phdr ∈ selSegs phs,
        ¬ srcViolates phdr elf_data.length ∧
        ¬ dstViolates phdr (minLma (selSegs phs)) img.length) ∧
    (selSegs phs ≠ [] → minLma (selSegs phs) ≠ U64_MAX →
      minLma (selSegs phs) < maxLmaEnd (selSegs phs) →
      (∃ phdr ∈ selSegs phs,
        srcViolates phdr elf_data.length ∨
        dstViolates phdr (minLma (selSegs phs))
          (maxLmaEnd (selSegs phs) - minLma (selSegs phs))) →
      ∃ e, elf2bin (.elf phs) elf_data = .error e ∧ isSegRangeError e) := by
  constructor
  · intro img hok phdr hm
    obtain ⟨_, _, _, hcopy⟩ := elf2bin_ok_elim phs elf_data img hok
    have hlen := copySegments_ok_length _ _ _ _ _ hcopy
    rw [List.length_replicate] at hlen
    have := copySegments_ok_checks _ _ _ _ _ hcopy phdr hm
    rw [List.length_replicate, ← hlen] at this
    exact this
  · intro hne hm hgt hviol
    simp only [elf2bin]
    rw [if_neg (by simpa [List.isEmpty_iff] using hne), if_neg hm, if_pos hgt]
    apply copySegments_err_of_violation
    rcases hviol with ⟨phdr, hmem, hv⟩
    exact ⟨phdr, hmem, by rwa [List.length_replicate]⟩

/-- C4 concrete violating input: a segment reading 4 bytes at offset 100 of a
10-byte file. -/
def cPhBad : ProgramHeader := ⟨1, 100, 0, 0, 4⟩

def cBadData : List Nat := List.replicate 10 0

/-- C4 witness: the error direction at the violating input, and the
no-truncation direction at the good input. -/
theorem c4_segment_range_checks_witness :
    (∃ e, elf2bin (.elf [cPhBad]) cBadData = .error e ∧ isSegRangeError e) ∧
    (¬ srcViolates cPh0 cElfData.length ∧
      ¬ dstViolates cPh0 (minLma (selSegs [cPh0]))
        ([222, 173, 190, 239] : List Nat).length) := by
  constructor
  · exact (c4_segment_range_checks [cPhBad] cBadData).2 (by decide) (by decide) (by decide)
      ⟨cPhBad, by decide, Or.inl (by decide)⟩
  · exact (c4_segment_range_checks [cPh0] cElfData).1 [222, 173, 190, 239] (by decide)
      cPh0 (by decide)

/-- C10: `min_lma` is a lower bound of every selected segment's `p_paddr`
(so `p_paddr - min_lma` never underflows), and on success every segment's
whole destination range lies inside the output buffer, so each
`copy_from_slice` write is in bounds. -/
theorem c10_write_in_bounds (phs : List ProgramHeader) (elf_data : List Nat) :
    (∀ phdr ∈ selSegs phs, minLma (selSegs phs) ≤ phdr.p_paddr) ∧
    (∀ img, elf2bin (.elf phs) elf_data = .ok img →
      ∀ phdr ∈ selSegs phs,
        (phdr.p_paddr - minLma (selSegs phs)) + phdr.p_filesz ≤ img.length) := by
  constructor
  · intro phdr hm
    rw [minLma_eq_minPaddr]
    exact foldl_min_le_mem (fun q => q.p_paddr) (selSegs phs) U64_MAX phdr hm
  · intro img hok phdr hm
    obtain ⟨_, _, _, hcopy⟩ := elf2bin_ok_elim phs elf_data img hok
    have hlen := copySegments_ok_length _ _ _ _ _ hcopy
    rw [List.length_replicate] at hlen
    have hd := (copySegments_ok_checks _ _ _ _ _ hcopy phdr hm).2
    unfold dstViolates at hd
    push_neg at hd
    have := hd.2
    rwa [List.length_replicate, ← hlen] at this

/-- C10 witness: the theorem applied to the concrete one-segment ELF. -/
theorem c10_write_in_bounds_witness :
    minLma (selSegs [cPh0]) ≤ cPh0.p_paddr ∧
    (cPh0.p_paddr - minLma (selSegs [cPh0])) + cPh0.p_filesz ≤
      ([222, 173, 190, 239] : List Nat).length :=
  ⟨(c10_write_in_bounds [cPh0] cElfData).1 cPh0 (by decide),
   (c10_write_in_bounds [cPh0] cElfData).2 [222, 173, 190, 239] (by decide) cPh0 (by decide)⟩

/-- C5: evaluation of the pipeline on non-ELF input. With a base-address
override the format error is returned to the caller, but when the base
address must be derived from the ELF, `get_base_addr_of_elf`'s
`Elf::parse(..).expect(..)` panics instead of returning the error. -/
theorem c5_format_error_paths :
    elf2uf2 .notElf [] 0 none = .panic ∧
    elf2uf2 .parseFailed [] 0 none = .panic ∧
    elf2uf2 .notElf [] 0 (some 4096) = .err .notAnElf ∧
    elf2uf2 .parseFailed [] 0 (some 4096) = .err .parseFailed := by
  decide

/-- C6: with no override, base-address resolution returns the least `p_vaddr`
among `PT_LOAD` segments truncated to 32 bits, and 0 when there is no
`PT_LOAD` segment. -/
theorem c6_base_addr_resolution (phs : List ProgramHeader) :
    (loadSegs phs = [] → get_base_addr_of_elf (.elf phs) = some 0) ∧
    (loadSegs phs ≠ [] →
      ∃ phdr ∈ loadSegs phs,
        get_base_addr_of_elf (.elf phs) = some (phdr.p_vaddr % 2 ^ 32) ∧
        ∀ q ∈ loadSegs phs, phdr.p_vaddr ≤ q.p_vaddr) := by
  constructor
  · intro h
    simp [get_base_addr_of_elf, h]
  · intro h
    have hmapne : (loadSegs phs).map (fun phdr => phdr.p_vaddr) ≠ [] := by
      simpa using h
    obtain ⟨a, ha⟩ := Option.ne_none_iff_exists'.mp
      (fun hc => hmapne (List.min?_eq_none_iff.mp hc))
    obtain ⟨hamem, hale⟩ := List.min?_eq_some_iff'.mp ha
    obtain ⟨phdr, hpm, hpv⟩ := List.mem_map.mp hamem
    refine ⟨phdr, hpm, ?_, ?_⟩
    · simp only [get_base_addr_of_elf, ha, Option.getD_some, hpv]
    · intro q hq
      rw [hpv]
      exact hale _ (List.mem_map.mpr ⟨q, hq, rfl⟩)

/-- C6 concrete input: one `PT_LOAD` segment with `p_vaddr = 2 ^ 35 + 7`,
exercising the 32-bit truncation. -/
def cPhV : ProgramHeader := ⟨1, 0, 2 ^ 35 + 7, 0, 4⟩

/-- C6 witness: both the no-`PT_LOAD` default and the truncated-minimum case. -/
theorem c6_base_addr_resolution_witness :
    get_base_addr_of_elf (.elf []) = some 0 ∧
    ∃ phdr ∈ loadSegs [cPhV],
      get_base_addr_of_elf (.elf [cPhV]) = some (phdr.p_vaddr % 2 ^ 32) ∧
      ∀ q ∈ loadSegs [cPhV], phdr.p_vaddr ≤ q.p_vaddr :=
  ⟨(c6_base_addr_resolution []).1 rfl, (c6_base_addr_resolution [cPhV]).2 (by decide)⟩

/-! ### UF2 round-trip lemmas -/

theorem chunksOfAux_flatten : ∀ (fuel : Nat) (l : List Nat), l.length ≤ fuel →
    (chunksOfAux fuel l).flatten = l := by
  intro fuel
  induction fuel with
  | zero =>
    intro l hl
    have : l = [] := List.length_eq_zero.mp (Nat.le_zero.mp hl)
    subst this
    rfl
  | succ m ih =>
    intro l hl
    cases l with
    | nil => rfl
    | cons a t =>
      show ((a :: t).take 256 :: chunksOfAux m ((a :: t).drop 256)).flatten = a :: t
      rw [List.flatten_cons,
        ih _ (by simp only [List.length_drop, List.length_cons] at hl ⊢; omega),
        List.take_append_drop]

theorem chunksOf256_flatten (l : List Nat) : (chunksOf256 l).flatten = l :=
  chunksOfAux_flatten l.length l le_rfl

theorem mkBlocks_length (family_id base_addr n : Nat) :
    ∀ (cs : List (List Nat)) (i : Nat), (mkBlocks family_id base_addr n i cs).length = cs.length := by
  intro cs
  induction cs with
  | nil => intro i; rfl
  | cons c rest ih => intro i; simpa [mkBlocks] using ih (i + 1)

theorem mkBlocks_find? (family_id base_addr n : Nat) :
    ∀ (cs : List (List Nat)) (i k : Nat), i ≤ k → k < i + cs.length →
      (mkBlocks family_id base_addr n i cs).find? (fun blk => blk.block_no == k) =
        some (mkBlock family_id base_addr n k (cs.getD (k - i) [])) := by
  intro cs
  induction cs with
  | nil =>
    intro i k h1 h2
    simp at h2
    omega
  | cons c rest ih =>
    intro i k h1 h2
    show List.find? _ (mkBlock family_id base_addr n i c :: _) = _
    rw [List.find?_cons]
    by_cases hik : i = k
    · subst hik
      have : (mkBlock family_id base_addr n i c).block_no == i := by
        simp [mkBlock]
      simp only [this]
      have h0 : i - i = 0 := by omega
      rw [h0]
      rfl
    · have hne : ((mkBlock family_id base_addr n i c).block_no == k) = false := by
        simp [mkBlock]
        omega
      simp only [hne]
      have hrec := ih (i + 1) k (by omega) (by simp at h2 ⊢; omega)
      rw [hrec]
      have hsub : k - i = (k - (i + 1)) + 1 := by omega
      rw [hsub, List.getD_cons_succ]

theorem range'_succ_one (s n : Nat) :
    List.range' s (n + 1) = s :: List.range' (s + 1) n := by
  simpa using List.range'_succ s n 1

theorem flattenMap_range' (g : Nat → List Nat) :
    ∀ (cs : List (List Nat)) (s : Nat),
      (∀ j, j < cs.length → g (s + j) = cs.getD j []) →
      ((List.range' s cs.length).map g).flatten = cs.flatten := by
  intro cs
  induction cs with
  | nil => intro s _; rfl
  | cons c rest ih =>
    intro s h
    show ((List.range' s (rest.length + 1)).map g).flatten = _
    rw [range'_succ_one, List.map_cons, List.flatten_cons, List.flatten_cons]
    have h0 : g s = c := by
      have := h 0 (by simp)
      simpa using this
    rw [h0, ih (s + 1) ?_]
    intro j hj
    have harith : s + 1 + j = s + (j + 1) := by omega
    rw [harith, h (j + 1) (by simp; omega), List.getD_cons_succ]

/-- C2 (amended): encoding an image and decoding the block stream in
`block_no` order, taking each block's first `payload_size` data bytes,
reproduces the image exactly — with `payload_size` the pre-padding chunk
length, the zero padding of the final chunk never reaches the decoded
bytes. -/
theorem c2_roundtrip_exact (image : List Nat) (family_id base_addr : Nat) :
    decodeUf2 (bin_to_uf2 image family_id base_addr) = image := by
  unfold decodeUf2 bin_to_uf2
  rw [mkBlocks_length, List.range_eq_range']
  have hmain := flattenMap_range'
    (fun k =>
      match (mkBlocks family_id base_addr (chunksOf256 image).length 0
          (chunksOf256 image)).find? (fun b => b.block_no == k) with
      | some b => b.data.take b.payload_size
      | none => [])
    (chunksOf256 image) 0 ?_
  · rw [hmain, chunksOf256_flatten]
  · intro j hj
    have hfind := mkBlocks_find? family_id base_addr (chunksOf256 image).length
      (chunksOf256 image) 0 (0 + j) (by omega) (by omega)
    simp only [hfind]
    have hj0 : 0 + j - 0 = j := by omega
    rw [hj0]
    show (((chunksOf256 image).getD j []) ++ _).take ((chunksOf256 image).getD j []).length = _
    exact List.take_left _ _

/-- C2 counterexample: for the one-byte image the decoded bytes are the image
itself, not the image padded with trailing zeros to a multiple of 256. -/
theorem c2_roundtrip_padded_cex :
    decodeUf2 (bin_to_uf2 [1] 0 0) ≠ [1] ++ List.replicate 255 0 := by
  decide

/-! ### Deployment claims -/

theorem deployAux_count_le (env : DeployEnv) (dp name : String) :
    ∀ (n s : Nat), (deployAux env dp name n s).2 ≤ n := by
  intro n
  induction n with
  | zero => intro s; exact le_rfl
  | succ m ih =>
    intro s
    show (match get_uf2_deploy_path (env.disks s) dp name with
      | .error _ =>
        let r := deployAux env dp name m (s + 1)
        ((r.1, r.2 + 1) : Option (List String) × Nat)
      | .ok p =>
        if env.copyOk s p then (some p, 1)
        else
          let r := deployAux env dp name m (s + 1)
          (r.1, r.2 + 1)).2 ≤ m + 1
    cases hres : get_uf2_deploy_path (env.disks s) dp name with
    | error e => simpa using ih (s + 1)
    | ok p =>
      cases hc : env.copyOk s p with
      | true => simp [hc]
      | false => simpa [hc] using ih (s + 1)

theorem deployAux_all_fail (env : DeployEnv) (dp name : String) :
    ∀ (n s : Nat), (∀ i, s ≤ i → i < s + n → attemptFails env dp name i) →
      deployAux env dp name n s = (none, n) := by
  intro n
  induction n with
  | zero => intro s _; rfl
  | succ m ih =>
    intro s h
    have hfs := h s le_rfl (by omega)
    unfold attemptFails at hfs
    show (match get_uf2_deploy_path (env.disks s) dp name with
      | .error _ =>
        let r := deployAux env dp name m (s + 1)
        ((r.1, r.2 + 1) : Option (List String) × Nat)
      | .ok p =>
        if env.copyOk s p then (some p, 1)
        else
          let r := deployAux env dp name m (s + 1)
          (r.1, r.2 + 1)) = (none, m + 1)
    have hrec : deployAux env dp name m (s + 1) = (none, m) :=
      ih (s + 1) fun i h1 h2 => h i (by omega) (by omega)
    cases hres : get_uf2_deploy_path (env.disks s) dp name with
    | error e => simp [hrec]
    | ok p =>
      rw [hres] at hfs
      simp [hfs, hrec]

theorem deployAux_first_success (env : DeployEnv) (dp name : String) :
    ∀ (n s k : Nat) (p : List String), s ≤ k → k < s + n →
      (∀ j, s ≤ j → j < k → attemptFails env dp name j) →
      get_uf2_deploy_path (env.disks k) dp name = .ok p →
      env.copyOk k p = true →
      deployAux env dp name n s = (some p, k + 1 - s) := by
  intro n
  induction n with
  | zero => intro s k p h1 h2; omega
  | succ m ih =>
    intro s k p h1 h2 hfail hres hcopy
    show (match get_uf2_deploy_path (env.disks s) dp name with
      | .error _ =>
        let r := deployAux env dp name m (s + 1)
        ((r.1, r.2 + 1) : Option (List String) × Nat)
      | .ok q =>
        if env.copyOk s q then (some q, 1)
        else
          let r := deployAux env dp name m (s + 1)
          (r.1, r.2 + 1)) = (some p, k + 1 - s)
    by_cases hks : k = s
    · subst hks
      rw [hres]
      simp only [hcopy, if_true]
      have : k + 1 - k = 1 := by omega
      rw [this]
    · have hsk : s < k := by omega
      have hrec : deployAux env dp name m (s + 1) = (some p, k + 1 - (s + 1)) :=
        ih (s + 1) k p (by omega) (by omega)
          (fun j hj1 hj2 => hfail j (by omega) hj2) hres hcopy
      have hfs := hfail s le_rfl hsk
      unfold attemptFails at hfs
      cases hres0 : get_uf2_deploy_path (env.disks s) dp name with
      | error e =>
        simp only [hrec]
        have : k + 1 - (s + 1) + 1 = k + 1 - s := by omega
        rw [this]
      | ok q =>
        rw [hres0] at hfs
        simp only [hfs, if_false, Bool.false_eq_true, hrec]
        have : k + 1 - (s + 1) + 1 = k + 1 - s := by omega
        rw [this]

/-- C7: with a retry budget of `n`, deployment performs at most `n`
resolve+copy attempts (each attempt re-resolving against that attempt's
mounted disks); if every attempt fails it performs exactly `n` attempts and
fails with `DeployFailed`; and the first attempt whose copy succeeds ends
the loop with that attempt's resolved destination. -/
theorem c7_retry_loop (env : DeployEnv) (dp name : String) (n : Nat) :
    deployAttempts env dp name n ≤ n ∧
    ((∀ i, i < n → attemptFails env dp name i) →
      deploy_uf2 env dp name n = .error .deployFailed ∧
        deployAttempts env dp name n = n) ∧
    (∀ k p, k < n → (∀ j, j < k → attemptFails env dp name j) →
      get_uf2_deploy_path (env.disks k) dp name = .ok p →
      env.copyOk k p = true →
      deploy_uf2 env dp name n = .ok p ∧ deployAttempts env dp name n = k + 1) := by
  refine ⟨deployAux_count_le env dp name n 0, ?_, ?_⟩
  · intro h
    have haux : deployAux env dp name n 0 = (none, n) :=
      deployAux_all_fail env dp name n 0 fun i _ h2 => h i (by omega)
    constructor
    · unfold deploy_uf2
      rw [haux]
    · unfold deployAttempts
      rw [haux]
  · intro k p hk hfail hres hcopy
    have haux : deployAux env dp name n 0 = (some p, k + 1 - 0) :=
      deployAux_first_success env dp name n 0 k p (by omega) (by omega)
        (fun j _ hj => hfail j hj) hres hcopy
    constructor
    · unfold deploy_uf2
      rw [haux]
    · unfold deployAttempts
      rw [haux]
      omega

/-- A deploy environment where no volume ever carries the sentinel and every
copy fails. -/
def envAllFail : DeployEnv := ⟨fun _ => [], fun _ _ => false⟩

/-- A deploy environment where every copy succeeds. -/
def envCopyOk : DeployEnv := ⟨fun _ => [], fun _ _ => true⟩

/-- C7 witness: three failing auto-discovery attempts end in `DeployFailed`
after exactly 3 attempts; a first-attempt success ends with the resolved
path after exactly 1 attempt. -/
theorem c7_retry_loop_witness :
    (deploy_uf2 envAllFail "auto" "a.uf2" 3 = .error .deployFailed ∧
      deployAttempts envAllFail "auto" "a.uf2" 3 = 3) ∧
    (deploy_uf2 envCopyOk "d" "a.uf2" 3 = .ok ["d", "a.uf2"] ∧
      deployAttempts envCopyOk "d" "a.uf2" 3 = 1) := by
  constructor
  · exact (c7_retry_loop envAllFail "auto" "a.uf2" 3).2.1
      fun i _ => by simp [attemptFails, get_uf2_deploy_path, envAllFail, Except.map]
  · exact (c7_retry_loop envCopyOk "d" "a.uf2" 3).2.2 0 ["d", "a.uf2"] (by omega)
      (fun j hj => absurd hj (by omega))
      (by simp [get_uf2_deploy_path, Except.map]) rfl

/-- C8: with an explicit (non-`"auto"`) destination path, resolution is
independent of the mounted volumes — the destination is the given directory
joined with the source file name — and if the first copy succeeds the
deployment succeeds with exactly one attempt. -/
theorem c8_explicit_path (env : DeployEnv) (dp name : String) (n : Nat)
    (hdp : dp ≠ "auto") (hn : 0 < n) :
    (∀ disks : List Disk, get_uf2_deploy_path disks dp name = .ok [dp, name]) ∧
    (env.copyOk 0 [dp, name] = true →
      deploy_uf2 env dp name n = .ok [dp, name] ∧ deployAttempts env dp name n = 1) := by
  have hres : ∀ disks : List Disk, get_uf2_deploy_path disks dp name = .ok [dp, name] := by
    intro disks
    simp [get_uf2_deploy_path, hdp, Except.map]
  refine ⟨hres, fun hcopy => ?_⟩
  have haux : deployAux env dp name n 0 = (some [dp, name], 0 + 1 - 0) :=
    deployAux_first_success env dp name n 0 0 [dp, name] le_rfl (by omega)
      (fun j _ hj => absurd hj (by omega)) (hres (env.disks 0)) hcopy
  constructor
  · unfold deploy_uf2
    rw [haux]
  · unfold deployAttempts
    rw [haux]

/-- C8 witness: the theorem at an explicit destination with a succeeding
first copy. -/
theorem c8_explicit_path_witness :
    get_uf2_deploy_path [] "dest" "a.uf2" = .ok ["dest", "a.uf2"] ∧
    deploy_uf2 envCopyOk "dest" "a.uf2" 1 = .ok ["dest", "a.uf2"] ∧
    deployAttempts envCopyOk "dest" "a.uf2" 1 = 1 := by
  have h := c8_explicit_path envCopyOk "dest" "a.uf2" 1 (by decide) (by decide)
  exact ⟨h.1 [], (h.2 rfl).1, (h.2 rfl).2⟩

/-- C9: evaluation of the preset lookup at the failing input. The table entry
has short name `"RP2040"` (bytes below), stored under its lowercased form
`"rp2040"`; the raw query `"RP2040"` misses while `"rp2040"` hits, so lookup
is not case-insensitive. -/
theorem c9_case_lookup_eval :
    resolveFamilyPreset [⟨0xe48bff56, [82, 80, 50, 48, 52, 48]⟩]
      [82, 80, 50, 48, 52, 48] = none ∧
    resolveFamilyPreset [⟨0xe48bff56, [82, 80, 50, 48, 52, 48]⟩]
      [114, 112, 50, 48, 52, 48] = some 0xe48bff56 := by
  decide

end Uf2Deploy
